import Mathlib

/-!
Verification of the dependency-reconciliation core of containerd/release-tool.

Go strings are modelled as `List Char` (the inputs of interest are ASCII, so
byte indices and character indices coincide).  Pure helpers from the source
(`getCommitOrVersion`, `getGitURL`, `nextGitURLTry`, the `git ls-remote`
output scanner) are translated directly.  The network (HTTP `?go-get=1`
discovery and `git ls-remote`) is abstracted as an oracle `NetEnv`; every
remote invocation is recorded in a trace so that "no network call is made"
is a provable statement.  The `Cache` interface is modelled by an
association list with the store semantics of the directory cache
(`Get` after `Put` returns the stored bytes).
-/

/-! ## Definitions: the embedded program -/

/-- A Go string, modelled as a list of characters. -/
abbrev GoString := List Char

/-- Splits a character list at every character satisfying `p`; separators are
dropped and empty runs are kept (the behaviour of repeatedly cutting at each
separator).  Never returns `[]`. -/
def goSplitP (p : Char → Bool) : GoString → List GoString
  | [] => [[]]
  | c :: t =>
    let r := goSplitP p t
    if p c then [] :: r
    else
      match r with
      | h :: rest => (c :: h) :: rest
      | [] => [[c]]

/-- `strings.Split(s, sep)` for a one-character separator. -/
def goSplit (sep : Char) (s : GoString) : List GoString :=
  goSplitP (fun c => c = sep) s

/-- `strings.FieldsFunc(s, p)`: split at characters satisfying `p` and drop
the empty fields. -/
def goFieldsFunc (p : Char → Bool) (s : GoString) : List GoString :=
  (goSplitP p s).filter (fun f => f ≠ ([] : GoString))

/-- Go's `unicode.IsSpace` restricted to the ASCII whitespace characters that
can occur in `git ls-remote` output. -/
def goIsSpace (c : Char) : Bool :=
  c = ' ' || c = '\t' || c = '\n' || c = '\r'

/-- `strings.Fields(s)`. -/
def goFields (s : GoString) : List GoString :=
  goFieldsFunc goIsSpace s

/-- `strings.Join(parts, "/")`. -/
def goJoinSlash : List GoString → GoString
  | [] => []
  | [x] => x
  | x :: xs => x ++ '/' :: goJoinSlash xs

/-- Auxiliary for `strings.Index`: position of the first occurrence of `sub`
in `s`, if any. -/
def goIndexNat (sub : GoString) : GoString → Option Nat
  | [] => if sub.isEmpty then some 0 else none
  | c :: t =>
    if sub.isPrefixOf (c :: t) then some 0
    else (goIndexNat sub t).map Nat.succ

/-- `strings.Index(s, sub)`: first index of `sub` in `s`, or `-1`. -/
def goIndex (s sub : GoString) : Int :=
  match goIndexNat sub s with
  | some n => (n : Int)
  | none => -1

/-- The `"+incompatible"` major-version marker of Go modules. -/
def incompatibleMarker : GoString := "+incompatible".toList

/-- `getCommitOrVersion` from the source: parses a go-modules version token,
returning the commit sha or ref together with whether the result is a git
sha.  Splits the token at `-` (dropping empty fields, as
`strings.FieldsFunc` does); more than 3 fields is an error signalled by an
empty result; exactly 3 fields means a pseudo-version whose third field is
the commit; otherwise the token is used as-is.  Finally the
`"+incompatible"` marker is cut off when it occurs at a positive index. -/
def getCommitOrVersion (cov : GoString) : GoString × Bool :=
  let dashFields := goFieldsFunc (fun c => c = '-') cov
  if dashFields.length > 3 then ([], false)
  else
    let covIsSha : GoString × Bool :=
      match dashFields with
      | [_, _, third] => (third, true)
      | _ => (cov, false)
    let incpIdx := goIndex covIsSha.1 incompatibleMarker
    if 0 < incpIdx then (covIsSha.1.take incpIdx.toNat, covIsSha.2)
    else covIsSha

/-- `getGitURL` from the source: known git clone URLs derived from dependency
names without a network call; the empty string means the URL must be
discovered via the `?go-get=1` protocol. -/
def getGitURL (name : GoString) : GoString :=
  let pre := name.takeWhile (fun c => c ≠ '/')
  -- `strings.Index(name, "/") > 0` holds iff the text before the first
  -- slash is non-empty and a slash actually occurs.
  if pre ≠ ([] : GoString) ∧ pre.length < name.length then
    if pre = "github.com".toList then
      let parts := goSplit '/' name
      if parts.length < 3 then []
      else "https://".toList ++ goJoinSlash (parts.take 3)
    else if pre = "k8s.io".toList then
      "https://github.com/kubernetes/".toList ++ cutAtSlash (afterFirstSlash name)
    else if pre = "sigs.k8s.io".toList then
      "https://github.com/kubernetes-sigs/".toList ++ cutAtSlash (afterFirstSlash name)
    else
      -- the `gopkg.in` and `golang.org` cases of the switch fall through
      []
  else []
where
  /-- `name[idx+1:]` for `idx` the position of the first slash. -/
  afterFirstSlash (s : GoString) : GoString :=
    (s.dropWhile (fun c => c ≠ '/')).tail
  /-- `repo[:i]` when `i := strings.Index(repo, "/")` is positive, else
  `repo` unchanged. -/
  cutAtSlash (repo : GoString) : GoString :=
    let p := repo.takeWhile (fun c => c ≠ '/')
    if p ≠ ([] : GoString) ∧ p.length < repo.length then p else repo

-- Sanity checks against the repository's `TestParseModuleCommit` and
-- `TestGetGitURL` test vectors.

/-- The `dependency` record of the source. -/
structure dependency where
  Name : GoString
  Ref : GoString
  Sha : GoString
  Previous : GoString
  GitURL : GoString
  New : Bool
deriving DecidableEq

/-- The `projectRename` record of the source. -/
structure projectRename where
  Old : GoString
  New : GoString
deriving DecidableEq

/-- The `dependencyOverride` record of the source. -/
structure dependencyOverride where
  Previous : GoString
deriving DecidableEq

/-- Lookup in an association list (Go map read / `Cache.Get`). -/
def alookup {α : Type} : List (GoString × α) → GoString → Option α
  | [], _ => none
  | (k, v) :: t, key => if k = key then some v else alookup t key

/-- Insert-or-replace in an association list (Go map write / `Cache.Put`). -/
def ainsert {α : Type} : List (GoString × α) → GoString → α → List (GoString × α)
  | [], k, v => [(k, v)]
  | (k', v') :: t, k, v => if k' = k then (k, v) :: t else (k', v') :: ainsert t k v

/-- One remote invocation made by the tool. -/
inductive netCall where
  /-- A `git ls-remote url rev rev^\x7b\x7d` invocation. -/
  | lsRemote (url rev : GoString)
  /-- An HTTP GET of `https://name?go-get=1`. -/
  | goGet (name : GoString)
deriving DecidableEq

/-- The mutable state threaded through a run: the cache contents and the
trace of remote calls issued so far. -/
structure St where
  cache : List (GoString × GoString)
  trace : List netCall
deriving DecidableEq

/-- The outside world: what `git ls-remote` would print for a (url, rev)
query (`none` models a failing git invocation), and which repository URL the
`?go-get=1` discovery of a name yields (`none` models transport errors,
error statuses and missing `go-import` meta tags alike). -/
structure NetEnv where
  lsRem : GoString → GoString → Option GoString
  goGet : GoString → Option GoString

/-- `nextGitURLTry` from the source: strip the last path segment
(`parts[:len(parts)-1]` is `dropLast`) to handle Go submodules, giving up
(empty string) when fewer than 3 segments remain. -/
def nextGitURLTry (url : GoString) : GoString :=
  let httpsPre : GoString := "https://".toList
  let hasPre := httpsPre.isPrefixOf url
  let pre : GoString := if hasPre then httpsPre else []
  let rest : GoString := if hasPre then url.drop 8 else url
  let parts := goSplit '/' rest
  if parts.length < 3 then []
  else pre ++ goJoinSlash parts.dropLast

/-- The body of the `lsRemote` retry loop, with fuel bounding the number of
iterations.  Each `git ls-remote` attempt is recorded in the trace; on
failure the URL is shortened with `nextGitURLTry` and the loop retries until
the URL is empty. -/
def lsRemoteFuel (env : NetEnv) : Nat → St → GoString → GoString → St × Option GoString
  | 0, st, _, _ => (st, none)
  | fuel + 1, st, url, rev =>
    if url = [] then (st, none)
    else
      let st' : St := { st with trace := st.trace ++ [netCall.lsRemote url rev] }
      match env.lsRem url rev with
      | some b => (st', some b)
      | none => lsRemoteFuel env fuel st' (nextGitURLTry url) rev

/-- `lsRemote` from the source.  `url.length + 1` units of fuel always
suffice because `nextGitURLTry` strictly shortens the URL
(`nextGitURLTry_length_lt`), as `lsRemoteFuel_fuel_irrel` confirms. -/
def lsRemote (env : NetEnv) (st : St) (url rev : GoString) : St × Option GoString :=
  lsRemoteFuel env (url.length + 1) st url rev

/-- The cache key `"git ls-remote %s %s %s^\x7b\x7d"` used by `getSha`. -/
def shaKeyOf (gitURL rev : GoString) : GoString :=
  "git ls-remote ".toList ++ gitURL ++ ' ' :: rev ++ ' ' :: rev ++ "^\x7b\x7d".toList

/-- The line scanner of `getSha`: over the `git ls-remote` output, ignore
lines that do not have exactly two fields; a line whose ref ends in
`^\x7b\x7d` (a dereferenced tag) marks the scan as resolved and its hash is
taken; once resolved, plain lines are skipped; hashes longer than 12
characters are truncated to 12. -/
def scanShaLines : List GoString → Bool → GoString → GoString
  | [], _, sha => sha
  | ln :: rest, resolved, sha =>
    match goFields ln with
    | [f0, f1] =>
      if ("^\x7b\x7d".toList : GoString).isSuffixOf f1 then
        scanShaLines rest true (if 12 < f0.length then f0.take 12 else f0)
      else if resolved then
        scanShaLines rest resolved sha
      else
        scanShaLines rest resolved (if 12 < f0.length then f0.take 12 else f0)
    | _ => scanShaLines rest resolved sha

/-- The error message of `getSha` when the listing has no matching ref. -/
def revisionNotFoundMsg : GoString := "revision not found".toList

/-- `getSha` from the source: resolve `(gitURL, rev)` to a canonical
12-character commit hash.  A cache hit answers immediately; otherwise the
`lsRemote` loop queries the remote.  A `nil` listing (every URL attempt
failed) yields an empty sha with *no* error; a listing with no matching ref
is the error `"revision not found"`; otherwise the hash is cached and
returned. -/
def getSha (env : NetEnv) (st : St) (gitURL rev : GoString) : St × GoString × Option GoString :=
  let key := shaKeyOf gitURL rev
  match alookup st.cache key with
  | some b => (st, b, none)
  | none =>
    match lsRemote env st gitURL rev with
    | (st₁, none) => (st₁, [], none)
    | (st₁, some b) =>
      let sha := scanShaLines (goSplit '\n' b) false []
      if sha = [] then (st₁, [], some revisionNotFoundMsg)
      else ({ st₁ with cache := ainsert st₁.cache key sha }, sha, none)

/-- The error message when `?go-get=1` discovery finds no usable meta tag
(transport and status errors are collapsed into the same oracle failure). -/
def noGoImportMsg : GoString := "no go-import meta tag".toList

/-- The discovery request URL `https://<name>?go-get=1` of `resolveGitURL`. -/
def goGetURLOf (name : GoString) : GoString :=
  "https://".toList ++ name ++ "?go-get=1".toList

/-- `resolveGitURL` from the source: discover the canonical git URL of a
dependency name via the `?go-get=1` protocol, caching the answer under the
request URL. -/
def resolveGitURL (env : NetEnv) (st : St) (name : GoString) :
    St × GoString × Option GoString :=
  let u := goGetURLOf name
  match alookup st.cache u with
  | some b => (st, b, none)
  | none =>
    let st₁ : St := { st with trace := st.trace ++ [netCall.goGet name] }
    match env.goGet name with
    | some resolved => ({ st₁ with cache := ainsert st₁.cache u resolved }, resolved, none)
    | none => (st₁, [], some noGoImportMsg)

/-- The wrapped error `fmt.Errorf("git url for %s: %w", name, err)`. -/
def errGitURLFor (name e : GoString) : GoString :=
  "git url for ".toList ++ name ++ ": ".toList ++ e

/-- The wrapped error `fmt.Errorf("failed to get sha for %s: %w", name, err)`. -/
def errShaFor (name e : GoString) : GoString :=
  "failed to get sha for ".toList ++ name ++ ": ".toList ++ e

/-- The first half of the resolution block of `getUpdatedDeps`: ensure the
previous record `d` has a sha, discovering its git URL first when unknown
(and copying the discovered URL onto the current record `c` when `c` lacks
one). -/
def resolveDSide (env : NetEnv) (st : St) (name : GoString) (d c : dependency) :
    St × dependency × dependency × Option GoString :=
  if d.Sha = [] then
    let afterURL : St × dependency × dependency × Option GoString :=
      if d.GitURL = [] then
        match resolveGitURL env st name with
        | (st₁, u, none) =>
          (st₁, { d with GitURL := u },
            if c.GitURL = [] then { c with GitURL := u } else c, none)
        | (st₁, _, some e) => (st₁, d, c, some (errGitURLFor name e))
      else (st, d, c, none)
    match afterURL with
    | (st₁, d₁, c₁, none) =>
      (match getSha env st₁ d₁.GitURL d₁.Ref with
       | (st₂, sha, none) => (st₂, { d₁ with Sha := sha }, c₁, none)
       | (st₂, _, some e) => (st₂, d₁, c₁, some (errShaFor name e)))
    | r => r
  else (st, d, c, none)

/-- The second half of the resolution block of `getUpdatedDeps`: ensure the
current record `c` has a sha, discovering its git URL first when unknown. -/
def resolveCSide (env : NetEnv) (st : St) (name : GoString) (d c : dependency) :
    St × dependency × dependency × Option GoString :=
  if c.Sha = [] then
    let afterURL : St × dependency × dependency × Option GoString :=
      if c.GitURL = [] then
        match resolveGitURL env st name with
        | (st₁, u, none) => (st₁, d, { c with GitURL := u }, none)
        | (st₁, _, some e) => (st₁, d, c, some (errGitURLFor name e))
      else (st, d, c, none)
    match afterURL with
    | (st₁, d₁, c₁, none) =>
      (match getSha env st₁ c₁.GitURL c₁.Ref with
       | (st₂, sha, none) => (st₂, d₁, { c₁ with Sha := sha }, none)
       | (st₂, _, some e) => (st₂, d₁, c₁, some (errShaFor name e)))
    | r => r
  else (st, d, c, none)

/-- Lines 566–596 of the source: resolve both sides to canonical commits,
aborting with a wrapped error naming the dependency on any failure. -/
def resolvePair (env : NetEnv) (st : St) (name : GoString) (d c : dependency) :
    St × dependency × dependency × Option GoString :=
  match resolveDSide env st name d c with
  | (st₁, d₁, c₁, none) => resolveCSide env st₁ name d₁ c₁
  | r => r

/-- The body of the `for name, c := range cm` loop of `getUpdatedDeps`:
skip ignored names; mark and include dependencies with no previous record;
decide overridden dependencies purely on the forced previous ref; otherwise
compare declared refs and, only when they differ, resolve both sides and
compare canonical commits.  Returns the updated state, the records appended
to `updated` by this iteration, and the error, if any. -/
def depStep (env : NetEnv) (st : St) (pm : List (GoString × dependency))
    (ignored : List GoString) (name : GoString) (c : dependency) :
    St × List dependency × Option GoString :=
  if name ∈ ignored then (st, [], none)
  else
    match alookup pm name with
    | none => (st, [{ c with New := true }], none)
    | some d =>
      if c.Previous ≠ [] then
        if c.Previous ≠ c.Ref then (st, [c], none) else (st, [], none)
      else if d.Ref ≠ c.Ref then
        match resolvePair env st name d c with
        | (st₁, d₁, c₁, none) =>
          if d₁.Sha ≠ c₁.Sha then (st₁, [{ c₁ with Previous := d₁.Ref }], none)
          else (st₁, [], none)
        | (st₁, _, _, some e) => (st₁, [], some e)
      else (st, [], none)

/-- The loop of `getUpdatedDeps` over the entries of the current dependency
map, accumulating `updated`; any step error aborts the whole loop, returning
`nil` (the empty list) together with the error. -/
def depLoop (env : NetEnv) (pm : List (GoString × dependency)) (ignored : List GoString) :
    St → List dependency → List (GoString × dependency) → St × List dependency × Option GoString
  | st, acc, [] => (st, acc, none)
  | st, acc, (name, c) :: rest =>
    match depStep env st pm ignored name c with
    | (st₁, incl, none) => depLoop env pm ignored st₁ (acc ++ incl) rest
    | (st₁, _, some e) => (st₁, [], some e)

/-- `toDepMap` from the source: index a dependency list by name; a later
entry with the same name overwrites an earlier one. -/
def toDepMap (deps : List dependency) : List (GoString × dependency) :=
  deps.foldl (fun m d => ainsert m d.Name d) []

/-- `getUpdatedDeps` from the source: reconcile the previous and current
dependency sets, producing the list of new or updated dependencies, or an
error (in which case the returned list is `nil`). -/
def getUpdatedDeps (env : NetEnv) (st : St) (previous deps : List dependency)
    (ignored : List GoString) : St × List dependency × Option GoString :=
  depLoop env (toDepMap previous) ignored st [] (toDepMap deps)

/-- `overrideDependencies` from the source: force the `Previous` field of
each dependency that has an override with a non-empty previous ref. -/
def overrideDependencies (deps : List dependency)
    (overrides : List (GoString × dependencyOverride)) : List dependency :=
  if overrides = [] then deps
  else
    deps.map fun d =>
      match alookup overrides d.Name with
      | some or =>
        if or.Previous ≠ [] then { d with Previous := or.Previous } else d
      | none => d

/-- The rename map built by `renameDependencies`: `rename.Old` maps to the
pair (shortname, `rename.New`). -/
def buildRenameMap (renames : List (GoString × projectRename)) :
    List (GoString × (GoString × GoString)) :=
  renames.foldl (fun m p => ainsert m p.2.Old (p.1, p.2.New)) []

/-- `renameDependencies` from the source: rewrite the `Name` of every
dependency that appears as the `Old` side of a rename rule. -/
def renameDependencies (deps : List dependency)
    (renames : List (GoString × projectRename)) : List dependency :=
  if renames = [] then deps
  else
    deps.map fun d =>
      match alookup (buildRenameMap renames) d.Name with
      | some u => { d with Name := u.2 }
      | none => d

/-- Build a dependency record from string literals. -/
def mkDepW (name ref sha prev url : String) (isNew : Bool) : dependency :=
  { Name := name.toList, Ref := ref.toList, Sha := sha.toList,
    Previous := prev.toList, GitURL := url.toList, New := isNew }

/-- A network in which every `git ls-remote` query prints one tag line and
every discovery succeeds. -/
def envOkW : NetEnv :=
  { lsRem := fun _ _ => some "aaaabbbbccccdddd refs/tags/v1".toList,
    goGet := fun _ => some "https://example.com/git".toList }

/-- A network in which every remote operation fails. -/
def envFailW : NetEnv :=
  { lsRem := fun _ _ => none, goGet := fun _ => none }

/-- The empty starting state. -/
def stEmptyW : St := { cache := [], trace := [] }

/-- A previous-set record with a sha, so reconciliation needs no network. -/
def depPrevShaW : dependency := mkDepW "a" "v1" "x" "" "" false

/-- A current record with the same declared ref as `depPrevShaW`. -/
def depCurSameW : dependency := mkDepW "a" "v1" "y" "" "" false

/-- A current record with a different declared ref and its own sha. -/
def depCurDiffW : dependency := mkDepW "a" "v2" "y" "" "" false

/-- A current record carrying an override-forced previous ref. -/
def depOvCurW : dependency := mkDepW "a" "v1" "" "v0" "" false

/-- A fresh dependency that only the current set contains. -/
def depNewW : dependency := mkDepW "b" "v1" "" "" "" false

/-- A previous record whose declared ref is empty (for the C2 counterexample). -/
def depC2PrevW : dependency := mkDepW "a" "" "x" "" "" false

/-- The current record matched against `depC2PrevW`. -/
def depC2CurW : dependency := mkDepW "a" "v2" "y" "" "" false

/-- A previous record that needs URL discovery (no sha, no URL). -/
def depC3PrevW : dependency := mkDepW "a" "v1" "" "" "" false

/-- The changed current record matched against `depC3PrevW`. -/
def depC3CurW : dependency := mkDepW "a" "v2" "" "" "" false

/-- The url/rev pair used by the C9 witness. -/
def urlW : GoString := "https://e.com/r".toList

/-- The revision used by the C9 witness. -/
def revW : GoString := "v1".toList

/-- The state after the first successful `getSha envOkW stEmptyW urlW revW`. -/
def stShaW : St :=
  { cache := [(shaKeyOf urlW revW, "aaaabbbbcccc".toList)],
    trace := [netCall.lsRemote urlW revW] }

/-- The state after the first successful discovery of name "n". -/
def stGoGetW : St :=
  { cache := [(goGetURLOf "n".toList, "https://example.com/git".toList)],
    trace := [netCall.goGet "n".toList] }

/-- The rename rules of the C10 witness. -/
def renamesW : List (GoString × projectRename) :=
  [("p".toList, { Old := "old/x".toList, New := "new/x".toList })]

/-- The dependency renamed by the C10 witness. -/
def depOldW : dependency := mkDepW "old/x" "v1" "s" "pv" "u" false

/-! ## Theorems -/

example : getCommitOrVersion "v16.2.1+incompatible".toList = ("v16.2.1".toList, false) := by decide

example : getCommitOrVersion "v0.0.0-20171204204709-577dee27f20d".toList =
    ("577dee27f20d".toList, true) := by decide

example : getCommitOrVersion "v1.0.0".toList = ("v1.0.0".toList, false) := by decide

example : getCommitOrVersion "v1.0.0-rc1".toList = ("v1.0.0-rc1".toList, false) := by decide

example : getCommitOrVersion "v0.4.15-0.20190919025122-fc70bd9a86b5".toList =
    ("fc70bd9a86b5".toList, true) := by decide

example : getGitURL "github.com/docker/distribution".toList =
    "https://github.com/docker/distribution".toList := by decide

example : getGitURL "sigs.k8s.io/yaml".toList =
    "https://github.com/kubernetes-sigs/yaml".toList := by decide

example : getGitURL "sigs.k8s.io/yaml/v2".toList =
    "https://github.com/kubernetes-sigs/yaml".toList := by decide

example : getGitURL "k8s.io/utils/v8".toList =
    "https://github.com/kubernetes/utils".toList := by decide

example : getGitURL "github.com/someorg/somerepo/unnecessarysubmod".toList =
    "https://github.com/someorg/somerepo".toList := by decide

theorem alookup_ainsert {α : Type} (m : List (GoString × α)) (k key : GoString) (v : α) :
    alookup (ainsert m k v) key = if k = key then some v else alookup m key := by
  induction m with
  | nil => simp [ainsert, alookup]
  | cons h t ih =>
    obtain ⟨k', v'⟩ := h
    simp only [ainsert]
    by_cases hk : k' = k
    · subst hk
      by_cases hkey : k' = key <;> simp [alookup, hkey]
    · simp only [if_neg hk, alookup]
      by_cases hkey : k' = key
      · subst hkey
        have hkk : ¬ (k = k') := fun hh => hk hh.symm
        simp [hkk]
      · simp [hkey, ih]

theorem alookup_mem {α : Type} {m : List (GoString × α)} {k : GoString} {v : α}
    (h : alookup m k = some v) : (k, v) ∈ m := by
  induction m with
  | nil => simp [alookup] at h
  | cons hd t ih =>
    obtain ⟨k', v'⟩ := hd
    by_cases hk : k' = k
    · subst hk
      simp [alookup] at h
      simp [h]
    · simp [alookup, hk] at h
      exact List.mem_cons_of_mem _ (ih h)

theorem goSplitP_ne_nil (p : Char → Bool) (s : GoString) : goSplitP p s ≠ [] := by
  cases s with
  | nil => simp [goSplitP]
  | cons c t =>
    simp only [goSplitP]
    split
    · simp
    · split <;> simp_all

theorem goSplit_cons_slash (t : GoString) :
    goSplit '/' ('/' :: t) = [] :: goSplit '/' t := by
  simp [goSplit, goSplitP]

theorem goSplit_cons_ne (c : Char) (t : GoString) (hc : ¬ c = '/') :
    goSplit '/' (c :: t) =
      match goSplit '/' t with
      | h :: rest => (c :: h) :: rest
      | [] => [[c]] := by
  simp [goSplit, goSplitP, hc]

theorem goJoinSlash_cons_ne (a : GoString) (L : List GoString) (h : L ≠ []) :
    goJoinSlash (a :: L) = a ++ '/' :: goJoinSlash L := by
  cases L with
  | nil => exact absurd rfl h
  | cons b r => rfl

theorem goJoinSlash_goSplit (s : GoString) : goJoinSlash (goSplit '/' s) = s := by
  induction s with
  | nil => rfl
  | cons c t ih =>
    by_cases hc : c = '/'
    · subst hc
      rw [goSplit_cons_slash,
        goJoinSlash_cons_ne [] (goSplit '/' t) (goSplitP_ne_nil _ t)]
      simpa using ih
    · rw [goSplit_cons_ne c t hc]
      cases h : goSplit '/' t with
      | nil => exact absurd h (goSplitP_ne_nil _ t)
      | cons a b =>
        rw [h] at ih
        cases b with
        | nil => simpa [goJoinSlash] using ih
        | cons x y =>
          rw [goJoinSlash_cons_ne (c :: a) (x :: y) (by simp), ← ih,
            goJoinSlash_cons_ne a (x :: y) (by simp)]
          simp

theorem goJoinSlash_dropLast_lt (l : List GoString) (h : 2 ≤ l.length) :
    (goJoinSlash l.dropLast).length < (goJoinSlash l).length := by
  induction l with
  | nil => simp at h
  | cons a t ih =>
    cases t with
    | nil => simp at h
    | cons b r =>
      cases r with
      | nil => simp [goJoinSlash, List.dropLast]
      | cons x y =>
        have hlt := ih (by simp)
        have h1 : (b :: x :: y).dropLast ≠ [] := by
          apply List.length_pos.mp
          simp [List.length_dropLast]
        rw [show (a :: b :: x :: y).dropLast = a :: (b :: x :: y).dropLast from rfl,
          goJoinSlash_cons_ne a _ h1,
          goJoinSlash_cons_ne a (b :: x :: y) (by simp)]
        simp only [List.length_append, List.length_cons]
        omega

/-- The URL strictly shrinks at each retry, so the `lsRemote` loop of the
source always terminates; it justifies the fuel bound used below. -/
theorem nextGitURLTry_length_lt (url : GoString) (h : url ≠ []) :
    (nextGitURLTry url).length < url.length := by
  have hpos : 0 < url.length := List.length_pos.mpr h
  cases hp : List.isPrefixOf ("https://".toList : GoString) url with
  | false =>
    simp only [nextGitURLTry, hp, Bool.false_eq_true, if_false]
    split
    · simpa using hpos
    · rename_i hlen
      have h2 : 2 ≤ (goSplit '/' url).length := by omega
      have hlt := goJoinSlash_dropLast_lt (goSplit '/' url) h2
      rw [goJoinSlash_goSplit] at hlt
      simpa using hlt
  | true =>
    have hurl : 8 ≤ url.length := by
      have hle := List.IsPrefix.length_le (List.isPrefixOf_iff_prefix.mp hp)
      simpa using hle
    simp only [nextGitURLTry, hp, if_true]
    split
    · simpa using hpos
    · rename_i hlen
      have h2 : 2 ≤ (goSplit '/' (url.drop 8)).length := by omega
      have hlt := goJoinSlash_dropLast_lt (goSplit '/' (url.drop 8)) h2
      rw [goJoinSlash_goSplit] at hlt
      have hdrop : (url.drop 8).length = url.length - 8 := by simp
      simp only [List.length_append]
      have hpre : (("https://".toList : GoString)).length = 8 := by decide
      omega

/-- Fuel irrelevance: any fuel above the URL length gives the same result,
so the fuelled loop faithfully models the source's `for` loop. -/
theorem lsRemoteFuel_fuel_irrel (env : NetEnv) :
    ∀ fuel st url rev, url.length < fuel →
      lsRemoteFuel env fuel st url rev = lsRemoteFuel env (url.length + 1) st url rev := by
  intro fuel
  induction fuel using Nat.strong_induction_on with
  | _ fuel ih =>
    intro st url rev hfuel
    match fuel, hfuel with
    | f + 1, hfuel =>
      simp only [lsRemoteFuel]
      by_cases hurl : url = []
      · simp [hurl]
      · simp only [hurl, if_false]
        cases env.lsRem url rev with
        | some b => simp
        | none =>
          simp only []
          have hlt := nextGitURLTry_length_lt url hurl
          rw [ih f (by omega) _ _ rev (by omega),
            ih url.length (by omega) _ _ rev (by omega)]

theorem resolveDSide_keeps (env : NetEnv) (st : St) (name : GoString) (d c : dependency)
    (st' : St) (d' c' : dependency) (e : Option GoString)
    (h : resolveDSide env st name d c = (st', d', c', e)) :
    d'.Name = d.Name ∧ d'.Ref = d.Ref ∧ d'.Previous = d.Previous ∧ d'.New = d.New ∧
    c'.Name = c.Name ∧ c'.Ref = c.Ref ∧ c'.Previous = c.Previous ∧ c'.Sha = c.Sha ∧
    c'.New = c.New := by
  by_cases hsha : d.Sha = []
  · by_cases hurl : d.GitURL = []
    · rcases hres : resolveGitURL env st name with ⟨st₂, u, e₂⟩
      cases e₂ with
      | none =>
        rcases hgs : getSha env st₂ u d.Ref with ⟨st₃, sha, e₃⟩
        cases e₃ with
        | none =>
          by_cases hc : c.GitURL = [] <;>
            · simp only [resolveDSide, hsha, hurl, hres, hgs, hc, if_pos, if_true,
                reduceIte] at h
              simp_all only [Prod.mk.injEq]
              obtain ⟨-, h2, h3, -⟩ := h
              subst h2; subst h3
              simp
        | some e₃ =>
          by_cases hc : c.GitURL = [] <;>
            · simp only [resolveDSide, hsha, hurl, hres, hgs, hc, reduceIte] at h
              simp_all only [Prod.mk.injEq]
              obtain ⟨-, h2, h3, -⟩ := h
              subst h2; subst h3
              simp
      | some e₂ =>
        simp only [resolveDSide, hsha, hurl, hres, reduceIte] at h
        simp only [Prod.mk.injEq] at h
        obtain ⟨-, h2, h3, -⟩ := h
        subst h2; subst h3
        simp
    · rcases hgs : getSha env st d.GitURL d.Ref with ⟨st₃, sha, e₃⟩
      cases e₃ with
      | none =>
        simp only [resolveDSide, hsha, hurl, hgs, reduceIte] at h
        simp only [Prod.mk.injEq] at h
        obtain ⟨-, h2, h3, -⟩ := h
        subst h2; subst h3
        simp
      | some e₃ =>
        simp only [resolveDSide, hsha, hurl, hgs, reduceIte] at h
        simp only [Prod.mk.injEq] at h
        obtain ⟨-, h2, h3, -⟩ := h
        subst h2; subst h3
        simp
  · simp only [resolveDSide, hsha, reduceIte] at h
    simp only [Prod.mk.injEq] at h
    obtain ⟨-, h2, h3, -⟩ := h
    subst h2; subst h3
    simp

theorem resolveCSide_keeps (env : NetEnv) (st : St) (name : GoString) (d c : dependency)
    (st' : St) (d' c' : dependency) (e : Option GoString)
    (h : resolveCSide env st name d c = (st', d', c', e)) :
    d' = d ∧ c'.Name = c.Name ∧ c'.Ref = c.Ref ∧ c'.Previous = c.Previous ∧
    c'.New = c.New := by
  by_cases hsha : c.Sha = []
  · by_cases hurl : c.GitURL = []
    · rcases hres : resolveGitURL env st name with ⟨st₂, u, e₂⟩
      cases e₂ with
      | none =>
        rcases hgs : getSha env st₂ u c.Ref with ⟨st₃, sha, e₃⟩
        cases e₃ with
        | none =>
          simp only [resolveCSide, hsha, hurl, hres, hgs, reduceIte] at h
          simp only [Prod.mk.injEq] at h
          obtain ⟨-, h2, h3, -⟩ := h
          subst h2; subst h3
          simp
        | some e₃ =>
          simp only [resolveCSide, hsha, hurl, hres, hgs, reduceIte] at h
          simp only [Prod.mk.injEq] at h
          obtain ⟨-, h2, h3, -⟩ := h
          subst h2; subst h3
          simp
      | some e₂ =>
        simp only [resolveCSide, hsha, hurl, hres, reduceIte] at h
        simp only [Prod.mk.injEq] at h
        obtain ⟨-, h2, h3, -⟩ := h
        subst h2; subst h3
        simp
    · rcases hgs : getSha env st c.GitURL c.Ref with ⟨st₃, sha, e₃⟩
      cases e₃ with
      | none =>
        simp only [resolveCSide, hsha, hurl, hgs, reduceIte] at h
        simp only [Prod.mk.injEq] at h
        obtain ⟨-, h2, h3, -⟩ := h
        subst h2; subst h3
        simp
      | some e₃ =>
        simp only [resolveCSide, hsha, hurl, hgs, reduceIte] at h
        simp only [Prod.mk.injEq] at h
        obtain ⟨-, h2, h3, -⟩ := h
        subst h2; subst h3
        simp
  · simp only [resolveCSide, hsha, reduceIte] at h
    simp only [Prod.mk.injEq] at h
    obtain ⟨-, h2, h3, -⟩ := h
    subst h2; subst h3
    simp

theorem resolvePair_keeps (env : NetEnv) (st : St) (name : GoString) (d c : dependency)
    (st' : St) (d' c' : dependency) (e : Option GoString)
    (h : resolvePair env st name d c = (st', d', c', e)) :
    d'.Name = d.Name ∧ d'.Ref = d.Ref ∧ d'.Previous = d.Previous ∧ d'.New = d.New ∧
    c'.Name = c.Name ∧ c'.Ref = c.Ref ∧ c'.Previous = c.Previous ∧ c'.New = c.New := by
  unfold resolvePair at h
  rcases hD : resolveDSide env st name d c with ⟨st₁, d₁, c₁, e₁⟩
  rw [hD] at h
  obtain ⟨kd1, kd2, kd3, kd4, kc1, kc2, kc3, kc4, kc5⟩ :=
    resolveDSide_keeps env st name d c st₁ d₁ c₁ e₁ hD
  cases e₁ with
  | none =>
    obtain ⟨hd, hc1, hc2, hc3, hc4⟩ :=
      resolveCSide_keeps env st₁ name d₁ c₁ st' d' c' e h
    subst hd
    exact ⟨kd1, kd2, kd3, kd4, hc1.trans kc1, hc2.trans kc2, hc3.trans kc3,
      hc4.trans kc5⟩
  | some e₁ =>
    simp only [Prod.mk.injEq] at h
    obtain ⟨-, h2, h3, -⟩ := h
    subst h2; subst h3
    exact ⟨kd1, kd2, kd3, kd4, kc1, kc2, kc3, kc5⟩

theorem resolveDSide_err (env : NetEnv) (st : St) (name : GoString) (d c : dependency)
    (st' : St) (d' c' : dependency) (e : GoString)
    (h : resolveDSide env st name d c = (st', d', c', some e)) :
    ∃ e₀, e = errGitURLFor name e₀ ∨ e = errShaFor name e₀ := by
  by_cases hsha : d.Sha = []
  · by_cases hurl : d.GitURL = []
    · rcases hres : resolveGitURL env st name with ⟨st₂, u, e₂⟩
      cases e₂ with
      | none =>
        rcases hgs : getSha env st₂ u d.Ref with ⟨st₃, sha, e₃⟩
        cases e₃ with
        | none =>
          by_cases hc : c.GitURL = [] <;>
            · simp only [resolveDSide, hsha, hurl, hres, hgs, hc, reduceIte,
                Prod.mk.injEq] at h
              exact Option.noConfusion h.2.2.2
        | some e₃ =>
          by_cases hc : c.GitURL = [] <;>
            · simp only [resolveDSide, hsha, hurl, hres, hgs, hc, reduceIte,
                Prod.mk.injEq, Option.some.injEq] at h
              exact ⟨e₃, Or.inr h.2.2.2.symm⟩
      | some e₂ =>
        simp only [resolveDSide, hsha, hurl, hres, reduceIte, Prod.mk.injEq,
          Option.some.injEq] at h
        exact ⟨e₂, Or.inl h.2.2.2.symm⟩
    · rcases hgs : getSha env st d.GitURL d.Ref with ⟨st₃, sha, e₃⟩
      cases e₃ with
      | none =>
        simp only [resolveDSide, hsha, hurl, hgs, reduceIte, Prod.mk.injEq] at h
        exact Option.noConfusion h.2.2.2
      | some e₃ =>
        simp only [resolveDSide, hsha, hurl, hgs, reduceIte, Prod.mk.injEq,
          Option.some.injEq] at h
        exact ⟨e₃, Or.inr h.2.2.2.symm⟩
  · simp only [resolveDSide, hsha, reduceIte, Prod.mk.injEq] at h
    exact Option.noConfusion h.2.2.2

theorem resolveCSide_err (env : NetEnv) (st : St) (name : GoString) (d c : dependency)
    (st' : St) (d' c' : dependency) (e : GoString)
    (h : resolveCSide env st name d c = (st', d', c', some e)) :
    ∃ e₀, e = errGitURLFor name e₀ ∨ e = errShaFor name e₀ := by
  by_cases hsha : c.Sha = []
  · by_cases hurl : c.GitURL = []
    · rcases hres : resolveGitURL env st name with ⟨st₂, u, e₂⟩
      cases e₂ with
      | none =>
        rcases hgs : getSha env st₂ u c.Ref with ⟨st₃, sha, e₃⟩
        cases e₃ with
        | none =>
          simp only [resolveCSide, hsha, hurl, hres, hgs, reduceIte,
            Prod.mk.injEq] at h
          exact Option.noConfusion h.2.2.2
        | some e₃ =>
          simp only [resolveCSide, hsha, hurl, hres, hgs, reduceIte,
            Prod.mk.injEq, Option.some.injEq] at h
          exact ⟨e₃, Or.inr h.2.2.2.symm⟩
      | some e₂ =>
        simp only [resolveCSide, hsha, hurl, hres, reduceIte, Prod.mk.injEq,
          Option.some.injEq] at h
        exact ⟨e₂, Or.inl h.2.2.2.symm⟩
    · rcases hgs : getSha env st c.GitURL c.Ref with ⟨st₃, sha, e₃⟩
      cases e₃ with
      | none =>
        simp only [resolveCSide, hsha, hurl, hgs, reduceIte, Prod.mk.injEq] at h
        exact Option.noConfusion h.2.2.2
      | some e₃ =>
        simp only [resolveCSide, hsha, hurl, hgs, reduceIte, Prod.mk.injEq,
          Option.some.injEq] at h
        exact ⟨e₃, Or.inr h.2.2.2.symm⟩
  · simp only [resolveCSide, hsha, reduceIte, Prod.mk.injEq] at h
    exact Option.noConfusion h.2.2.2

theorem resolvePair_err (env : NetEnv) (st : St) (name : GoString) (d c : dependency)
    (st' : St) (d' c' : dependency) (e : GoString)
    (h : resolvePair env st name d c = (st', d', c', some e)) :
    ∃ e₀, e = errGitURLFor name e₀ ∨ e = errShaFor name e₀ := by
  unfold resolvePair at h
  rcases hD : resolveDSide env st name d c with ⟨st₁, d₁, c₁, e₁⟩
  rw [hD] at h
  cases e₁ with
  | none => exact resolveCSide_err env st₁ name d₁ c₁ st' d' c' e h
  | some e₁ =>
    simp only [Prod.mk.injEq, Option.some.injEq] at h
    obtain ⟨-, -, -, he⟩ := h
    subst he
    exact resolveDSide_err env st name d c st₁ d₁ c₁ e₁ hD

theorem depStep_new (env : NetEnv) (st : St) (pm : List (GoString × dependency))
    (ignored : List GoString) (name : GoString) (c : dependency)
    (hpm : alookup pm name = none) (hig : name ∉ ignored) :
    depStep env st pm ignored name c = (st, [{ c with New := true }], none) := by
  simp [depStep, hpm, hig]

theorem depStep_ignored (env : NetEnv) (st : St) (pm : List (GoString × dependency))
    (ignored : List GoString) (name : GoString) (c : dependency)
    (hig : name ∈ ignored) :
    depStep env st pm ignored name c = (st, [], none) := by
  simp [depStep, hig]

theorem depStep_override_eq (env : NetEnv) (st : St) (pm : List (GoString × dependency))
    (ignored : List GoString) (name : GoString) (c d : dependency)
    (hig : name ∉ ignored) (hpm : alookup pm name = some d) (hprev : c.Previous ≠ []) :
    depStep env st pm ignored name c =
      if c.Previous ≠ c.Ref then (st, [c], none) else (st, [], none) := by
  simp [depStep, hig, hpm, hprev]

theorem depStep_nochange (env : NetEnv) (st : St) (pm : List (GoString × dependency))
    (ignored : List GoString) (name : GoString) (c d : dependency)
    (hig : name ∉ ignored) (hpm : alookup pm name = some d) (hprev : c.Previous = [])
    (href : d.Ref = c.Ref) :
    depStep env st pm ignored name c = (st, [], none) := by
  simp [depStep, hig, hpm, hprev, href]

theorem depStep_update_eq (env : NetEnv) (st : St) (pm : List (GoString × dependency))
    (ignored : List GoString) (name : GoString) (c d : dependency)
    (hig : name ∉ ignored) (hpm : alookup pm name = some d) (hprev : c.Previous = [])
    (href : d.Ref ≠ c.Ref) :
    depStep env st pm ignored name c =
      match resolvePair env st name d c with
      | (st₁, d₁, c₁, none) =>
        if d₁.Sha ≠ c₁.Sha then (st₁, [{ c₁ with Previous := d₁.Ref }], none)
        else (st₁, [], none)
      | (st₁, _, _, some e) => (st₁, [], some e) := by
  simp [depStep, hig, hpm, hprev, href]

theorem depStep_incl_inv (env : NetEnv) (st : St) (pm : List (GoString × dependency))
    (ignored : List GoString) (name : GoString) (c r : dependency)
    (h : r ∈ (depStep env st pm ignored name c).2.1) :
    r.New = true ∨ r.Previous ≠ r.Ref := by
  by_cases hig : name ∈ ignored
  · rw [depStep_ignored env st pm ignored name c hig] at h
    simp at h
  · cases hpm : alookup pm name with
    | none =>
      rw [depStep_new env st pm ignored name c hpm hig] at h
      simp at h
      subst h
      left; rfl
    | some d =>
      by_cases hprev : c.Previous = []
      · by_cases href : d.Ref = c.Ref
        · rw [depStep_nochange env st pm ignored name c d hig hpm hprev href] at h
          simp at h
        · rw [depStep_update_eq env st pm ignored name c d hig hpm hprev href] at h
          rcases hrp : resolvePair env st name d c with ⟨st₁, d₁, c₁, e₁⟩
          rw [hrp] at h
          cases e₁ with
          | none =>
            obtain ⟨-, k2, -, -, -, k6, -, -⟩ :=
              resolvePair_keeps env st name d c st₁ d₁ c₁ none hrp
            by_cases hsha : d₁.Sha = c₁.Sha
            · simp [hsha] at h
            · simp [hsha] at h
              subst h
              right
              show d₁.Ref ≠ c₁.Ref
              rw [k2, k6]
              exact href
          | some e₁ => simp at h
      · rw [depStep_override_eq env st pm ignored name c d hig hpm hprev] at h
        by_cases hpr : c.Previous = c.Ref
        · simp [hpr] at h
        · simp [hpr] at h
          subst h
          right; exact hpr

theorem depStep_err (env : NetEnv) (st : St) (pm : List (GoString × dependency))
    (ignored : List GoString) (name : GoString) (c : dependency)
    (st₁ : St) (l : List dependency) (e : GoString)
    (h : depStep env st pm ignored name c = (st₁, l, some e)) :
    l = [] ∧ ∃ e₀, e = errGitURLFor name e₀ ∨ e = errShaFor name e₀ := by
  by_cases hig : name ∈ ignored
  · rw [depStep_ignored env st pm ignored name c hig] at h
    simp at h
  · cases hpm : alookup pm name with
    | none =>
      rw [depStep_new env st pm ignored name c hpm hig] at h
      simp at h
    | some d =>
      by_cases hprev : c.Previous = []
      · by_cases href : d.Ref = c.Ref
        · rw [depStep_nochange env st pm ignored name c d hig hpm hprev href] at h
          simp at h
        · rw [depStep_update_eq env st pm ignored name c d hig hpm hprev href] at h
          rcases hrp : resolvePair env st name d c with ⟨st₂, d₁, c₁, e₁⟩
          rw [hrp] at h
          cases e₁ with
          | none =>
            by_cases hsha : d₁.Sha = c₁.Sha <;> simp [hsha] at h
          | some e₁ =>
            simp only [Prod.mk.injEq, Option.some.injEq] at h
            obtain ⟨-, hl, he⟩ := h
            subst he
            exact ⟨hl.symm, resolvePair_err env st name d c st₂ d₁ c₁ e₁ hrp⟩
      · rw [depStep_override_eq env st pm ignored name c d hig hpm hprev] at h
        by_cases hpr : c.Previous = c.Ref <;> simp [hpr] at h

theorem depLoop_acc (env : NetEnv) (pm : List (GoString × dependency))
    (ignored : List GoString) :
    ∀ entries st acc st' l, depLoop env pm ignored st acc entries = (st', l, none) →
      ∃ suf, l = acc ++ suf := by
  intro entries
  induction entries with
  | nil =>
    intro st acc st' l h
    simp only [depLoop, Prod.mk.injEq] at h
    exact ⟨[], by simp [h.2.1.symm]⟩
  | cons hd rest ih =>
    intro st acc st' l h
    obtain ⟨name, c⟩ := hd
    simp only [depLoop] at h
    rcases hs : depStep env st pm ignored name c with ⟨st₁, incl, e₁⟩
    rw [hs] at h
    cases e₁ with
    | none =>
      obtain ⟨suf, hsuf⟩ := ih st₁ (acc ++ incl) st' l h
      exact ⟨incl ++ suf, by simp [hsuf]⟩
    | some e => simp at h

theorem depLoop_err (env : NetEnv) (pm : List (GoString × dependency))
    (ignored : List GoString) :
    ∀ entries st acc st' l e, depLoop env pm ignored st acc entries = (st', l, some e) →
      l = [] ∧ ∃ name, name ∈ entries.map Prod.fst ∧
        ∃ e₀, e = errGitURLFor name e₀ ∨ e = errShaFor name e₀ := by
  intro entries
  induction entries with
  | nil =>
    intro st acc st' l e h
    simp [depLoop] at h
  | cons hd rest ih =>
    intro st acc st' l e h
    obtain ⟨name, c⟩ := hd
    simp only [depLoop] at h
    rcases hs : depStep env st pm ignored name c with ⟨st₁, incl, e₁⟩
    rw [hs] at h
    cases e₁ with
    | none =>
      obtain ⟨hl, n, hn, hform⟩ := ih st₁ (acc ++ incl) st' l e h
      exact ⟨hl, n, by simp only [List.map_cons]; exact List.mem_cons_of_mem _ hn, hform⟩
    | some e₁ =>
      simp only [Prod.mk.injEq, Option.some.injEq] at h
      obtain ⟨-, hl, he⟩ := h
      subst he
      obtain ⟨-, hform⟩ := depStep_err env st pm ignored name c st₁ incl e₁ hs
      exact ⟨hl.symm, name,
        by simp only [List.map_cons]; exact List.mem_cons_self _ _, hform⟩

theorem depLoop_inv (env : NetEnv) (pm : List (GoString × dependency))
    (ignored : List GoString) :
    ∀ entries st acc st' l err, (∀ r ∈ acc, r.New = true ∨ r.Previous ≠ r.Ref) →
      depLoop env pm ignored st acc entries = (st', l, err) →
      ∀ r ∈ l, r.New = true ∨ r.Previous ≠ r.Ref := by
  intro entries
  induction entries with
  | nil =>
    intro st acc st' l err hacc h
    simp only [depLoop, Prod.mk.injEq] at h
    rw [← h.2.1]
    exact hacc
  | cons hd rest ih =>
    intro st acc st' l err hacc h
    obtain ⟨name, c⟩ := hd
    simp only [depLoop] at h
    rcases hs : depStep env st pm ignored name c with ⟨st₁, incl, e₁⟩
    rw [hs] at h
    cases e₁ with
    | none =>
      refine ih st₁ (acc ++ incl) st' l err ?_ h
      intro r hr
      rcases List.mem_append.mp hr with hr | hr
      · exact hacc r hr
      · have hmem : r ∈ (depStep env st pm ignored name c).2.1 := by rw [hs]; exact hr
        exact depStep_incl_inv env st pm ignored name c r hmem
    | some e =>
      simp only [Prod.mk.injEq] at h
      rw [← h.2.1]
      simp

theorem depLoop_new_mem (env : NetEnv) (pm : List (GoString × dependency))
    (ignored : List GoString) (name : GoString) (c : dependency)
    (hpm : alookup pm name = none) (hig : name ∉ ignored) :
    ∀ entries st acc st' l, (name, c) ∈ entries →
      depLoop env pm ignored st acc entries = (st', l, none) →
      { c with New := true } ∈ l := by
  intro entries
  induction entries with
  | nil =>
    intro st acc st' l hmem h
    simp at hmem
  | cons hd rest ih =>
    intro st acc st' l hmem h
    obtain ⟨n₀, c₀⟩ := hd
    by_cases hcur : (n₀, c₀) = (name, c)
    · rw [Prod.mk.injEq] at hcur
      obtain ⟨rfl, rfl⟩ := hcur
      simp only [depLoop, depStep_new env st pm ignored n₀ c₀ hpm hig] at h
      obtain ⟨suf, hsuf⟩ := depLoop_acc env pm ignored rest st
        (acc ++ [{ c₀ with New := true }]) st' l h
      rw [hsuf]
      simp
    · have hmem' : (name, c) ∈ rest := by
        rcases List.mem_cons.mp hmem with hm | hm
        · exact absurd hm.symm hcur
        · exact hm
      simp only [depLoop] at h
      rcases hs : depStep env st pm ignored n₀ c₀ with ⟨st₁, incl, e₁⟩
      rw [hs] at h
      cases e₁ with
      | none => exact ih st₁ (acc ++ incl) st' l hmem' h
      | some e => simp at h

theorem mem_ainsert {α : Type} {m : List (GoString × α)} {k k' : GoString} {v v' : α}
    (h : (k, v) ∈ ainsert m k' v') : (k, v) ∈ m ∨ (k = k' ∧ v = v') := by
  induction m with
  | nil =>
    simp [ainsert] at h
    exact Or.inr h
  | cons hd t ih =>
    obtain ⟨k₀, v₀⟩ := hd
    by_cases hk : k₀ = k'
    · subst hk
      simp only [ainsert, if_pos rfl] at h
      rcases List.mem_cons.mp h with h' | h'
      · right
        exact ⟨congrArg Prod.fst h', congrArg Prod.snd h'⟩
      · exact Or.inl (List.mem_cons_of_mem _ h')
    · simp only [ainsert, if_neg hk] at h
      rcases List.mem_cons.mp h with h' | h'
      · exact Or.inl (h' ▸ List.mem_cons_self _ _)
      · rcases ih h' with h'' | h''
        · exact Or.inl (List.mem_cons_of_mem _ h'')
        · exact Or.inr h''

theorem foldl_ainsert_mem (deps : List dependency) :
    ∀ (acc : List (GoString × dependency)) (k : GoString) (v : dependency),
      (k, v) ∈ deps.foldl (fun m d => ainsert m d.Name d) acc →
      (k, v) ∈ acc ∨ k ∈ deps.map dependency.Name := by
  induction deps with
  | nil =>
    intro acc k v h
    exact Or.inl h
  | cons d rest ih =>
    intro acc k v h
    simp only [List.foldl_cons] at h
    rcases ih (ainsert acc d.Name d) k v h with h' | h'
    · rcases mem_ainsert h' with h'' | h''
      · exact Or.inl h''
      · right
        simp [h''.1]
    · right
      simp only [List.map_cons]
      exact List.mem_cons_of_mem _ h'

theorem toDepMap_key_names (deps : List dependency) (k : GoString) (v : dependency)
    (h : (k, v) ∈ toDepMap deps) : k ∈ deps.map dependency.Name := by
  rcases foldl_ainsert_mem deps [] k v h with h' | h'
  · simp at h'
  · exact h'

theorem foldl_ainsert_lookup_none (deps : List dependency) :
    ∀ (acc : List (GoString × dependency)) (n : GoString),
      n ∉ deps.map dependency.Name → alookup acc n = none →
      alookup (deps.foldl (fun m d => ainsert m d.Name d) acc) n = none := by
  induction deps with
  | nil =>
    intro acc n _ hacc
    exact hacc
  | cons d rest ih =>
    intro acc n hn hacc
    simp only [List.map_cons, List.mem_cons, not_or] at hn
    simp only [List.foldl_cons]
    refine ih (ainsert acc d.Name d) n hn.2 ?_
    rw [alookup_ainsert, if_neg (fun hh => hn.1 hh.symm)]
    exact hacc

theorem alookup_toDepMap_none (deps : List dependency) (n : GoString)
    (h : n ∉ deps.map dependency.Name) : alookup (toDepMap deps) n = none :=
  foldl_ainsert_lookup_none deps [] n h rfl

theorem alookup_foldl_rename (renames : List (GoString × projectRename)) :
    ∀ (acc : List (GoString × (GoString × GoString))) (k : GoString)
      (v : GoString × GoString),
      alookup (renames.foldl (fun m p => ainsert m p.2.Old (p.1, p.2.New)) acc) k = some v →
      alookup acc k = some v ∨ ∃ p ∈ renames, p.2.Old = k ∧ (p.1, p.2.New) = v := by
  induction renames with
  | nil =>
    intro acc k v h
    exact Or.inl h
  | cons p rest ih =>
    intro acc k v h
    simp only [List.foldl_cons] at h
    rcases ih (ainsert acc p.2.Old (p.1, p.2.New)) k v h with h' | h'
    · rw [alookup_ainsert] at h'
      by_cases hk : p.2.Old = k
      · rw [if_pos hk] at h'
        right
        exact ⟨p, List.mem_cons_self _ _, hk, Option.some.inj h'⟩
      · rw [if_neg hk] at h'
        exact Or.inl h'
    · obtain ⟨q, hq, h1, h2⟩ := h'
      exact Or.inr ⟨q, List.mem_cons_of_mem _ hq, h1, h2⟩

theorem buildRenameMap_lookup_mem {renames : List (GoString × projectRename)}
    {k : GoString} {v : GoString × GoString}
    (h : alookup (buildRenameMap renames) k = some v) :
    ∃ p ∈ renames, p.2.Old = k ∧ (p.1, p.2.New) = v := by
  rcases alookup_foldl_rename renames [] k v h with h' | h'
  · simp [alookup] at h'
  · exact h'

/-- Claim C1: for a name present in both sets whose current record has no
override-forced previous ref and is not ignored, the loop body of
`getUpdatedDeps` behaves as follows.  If the declared refs are textually
equal the record is excluded and the state — the network-call trace
included — is returned unchanged, so no network resolution happens.  If
they differ, both records are resolved to canonical commits by
`resolvePair` (which inside resolves the source URL first when it is
unknown); when that resolution succeeds the declared refs are untouched by
it, the record is excluded when the canonical commits agree, and it is
included with `Previous` set to the previous declared ref when they
differ. -/
theorem c1_existing_pair (env : NetEnv) (st : St) (pm : List (GoString × dependency))
    (ignored : List GoString) (name : GoString) (c d : dependency)
    (hpm : alookup pm name = some d) (hig : name ∉ ignored)
    (hov : c.Previous = []) :
    (d.Ref = c.Ref → depStep env st pm ignored name c = (st, [], none)) ∧
    (∀ st' d' c', d.Ref ≠ c.Ref →
      resolvePair env st name d c = (st', d', c', none) →
      d'.Ref = d.Ref ∧ c'.Ref = c.Ref ∧
      (d'.Sha = c'.Sha → depStep env st pm ignored name c = (st', [], none)) ∧
      (d'.Sha ≠ c'.Sha → depStep env st pm ignored name c =
        (st', [{ c' with Previous := d'.Ref }], none))) := by
  constructor
  · intro href
    exact depStep_nochange env st pm ignored name c d hig hpm hov href
  · intro st' d' c' href hrp
    obtain ⟨-, k2, -, -, -, k6, -, -⟩ :=
      resolvePair_keeps env st name d c st' d' c' none hrp
    refine ⟨k2, k6, ?_, ?_⟩
    · intro hsha
      rw [depStep_update_eq env st pm ignored name c d hig hpm hov href, hrp]
      simp [hsha]
    · intro hsha
      rw [depStep_update_eq env st pm ignored name c d hig hpm hov href, hrp]
      simp [hsha]

theorem c1_witness :
    depStep envFailW stEmptyW [("a".toList, depPrevShaW)] [] "a".toList depCurSameW =
      (stEmptyW, [], none) ∧
    depStep envFailW stEmptyW [("a".toList, depPrevShaW)] [] "a".toList depCurDiffW =
      (stEmptyW, [{ depCurDiffW with Previous := depPrevShaW.Ref }], none) := by
  constructor
  · exact (c1_existing_pair envFailW stEmptyW [("a".toList, depPrevShaW)] []
      "a".toList depCurSameW depPrevShaW (by decide) (by decide) (by decide)).1 (by decide)
  · exact ((c1_existing_pair envFailW stEmptyW [("a".toList, depPrevShaW)] []
      "a".toList depCurDiffW depPrevShaW (by decide) (by decide) (by decide)).2
      stEmptyW depPrevShaW depCurDiffW (by decide) (by decide)).2.2.2 (by decide)

/-- Claim C2 counterexample: with a previous record whose declared ref is
empty and both shas already known, the record for "a" is included with
`New = false` and an empty `Previous`, so the output does not satisfy
"isNew or a non-empty previousRef distinct from the declared ref". -/
theorem c2_counterexample :
    (getUpdatedDeps envFailW stEmptyW [depC2PrevW] [depC2CurW] []).2.1 = [depC2CurW] ∧
    ¬ (depC2CurW.New = true ∨
        (depC2CurW.Previous ≠ [] ∧ depC2CurW.Previous ≠ depC2CurW.Ref)) := by
  decide

/-- Claim C2 (amended): every record in the reconciliation output has either
`New = true` or a `Previous` that differs from its declared ref — the
amendment drops the non-emptiness of `Previous`, which fails when the
previous record's declared ref is itself empty. -/
theorem c2_output_invariant (env : NetEnv) (st : St) (previous deps : List dependency)
    (ignored : List GoString) (r : dependency)
    (hr : r ∈ (getUpdatedDeps env st previous deps ignored).2.1) :
    r.New = true ∨ r.Previous ≠ r.Ref := by
  rcases hg : getUpdatedDeps env st previous deps ignored with ⟨st', l, err⟩
  rw [hg] at hr
  rw [getUpdatedDeps] at hg
  exact depLoop_inv env (toDepMap previous) ignored (toDepMap deps) st [] st' l err
    (by simp) hg r hr

theorem c2_witness :
    depC2CurW.New = true ∨ depC2CurW.Previous ≠ depC2CurW.Ref :=
  c2_output_invariant envFailW stEmptyW [depC2PrevW] [depC2CurW] [] depC2CurW (by decide)

/-- Claim C3: whenever canonical-commit resolution fails, `getUpdatedDeps`
aborts the whole operation: an erroring run returns the empty list (never a
partial one) and its error is one of the two wrapped resolution errors
(`"git url for <name>: ..."` from source-URL discovery, or
`"failed to get sha for <name>: ..."` from revision lookup) naming a
dependency of the current set; and a loop step whose resolution fails makes
the whole loop return that error with the empty list, whatever was already
accumulated. -/
theorem c3_resolution_failure_aborts (env : NetEnv) (st : St)
    (previous deps : List dependency) (ignored : List GoString) :
    (∀ st' l e, getUpdatedDeps env st previous deps ignored = (st', l, some e) →
      l = [] ∧ ∃ name, name ∈ deps.map dependency.Name ∧
        ∃ e₀, e = errGitURLFor name e₀ ∨ e = errShaFor name e₀) ∧
    (∀ st₀ acc name c rest st₁ l₀ e,
      depStep env st₀ (toDepMap previous) ignored name c = (st₁, l₀, some e) →
      depLoop env (toDepMap previous) ignored st₀ acc ((name, c) :: rest) =
        (st₁, [], some e)) := by
  constructor
  · intro st' l e h
    rw [getUpdatedDeps] at h
    obtain ⟨hl, n, hn, hform⟩ :=
      depLoop_err env (toDepMap previous) ignored (toDepMap deps) st [] st' l e h
    obtain ⟨⟨k, v⟩, hkv, hfst⟩ := List.mem_map.mp hn
    refine ⟨hl, n, ?_, hform⟩
    rw [← hfst]
    exact toDepMap_key_names deps k v hkv
  · intro st₀ acc name c rest st₁ l₀ e h
    simp only [depLoop, h]

theorem c3_witness :
    ([] : List dependency) = [] ∧
    ∃ name, name ∈ [depC3CurW].map dependency.Name ∧
      ∃ e₀, errGitURLFor "a".toList noGoImportMsg = errGitURLFor name e₀ ∨
        errGitURLFor "a".toList noGoImportMsg = errShaFor name e₀ :=
  (c3_resolution_failure_aborts envFailW stEmptyW [depC3PrevW] [depC3CurW] []).1
    { cache := [], trace := [netCall.goGet "a".toList] } []
    (errGitURLFor "a".toList noGoImportMsg) (by decide)

/-- Claim C4: a name present in the current set, absent from the previous
set and absent from the ignore list is always included in a successful
reconciliation output with its record marked new; its loop step returns the
marked record immediately, without any comparison or network call (the
state is unchanged). -/
theorem c4_new_dep (env : NetEnv) (st : St) (previous deps : List dependency)
    (ignored : List GoString) (name : GoString) (c : dependency)
    (hcur : alookup (toDepMap deps) name = some c)
    (hprev : name ∉ previous.map dependency.Name)
    (hig : name ∉ ignored) :
    (∀ st' l, getUpdatedDeps env st previous deps ignored = (st', l, none) →
      { c with New := true } ∈ l) ∧
    (∀ st₀ : St, depStep env st₀ (toDepMap previous) ignored name c =
      (st₀, [{ c with New := true }], none)) := by
  have hpm : alookup (toDepMap previous) name = none :=
    alookup_toDepMap_none previous name hprev
  constructor
  · intro st' l h
    rw [getUpdatedDeps] at h
    exact depLoop_new_mem env (toDepMap previous) ignored name c hpm hig
      (toDepMap deps) st [] st' l (alookup_mem hcur) h
  · intro st₀
    exact depStep_new env st₀ (toDepMap previous) ignored name c hpm hig

theorem c4_witness :
    { depNewW with New := true } ∈ [{ depNewW with New := true }] :=
  (c4_new_dep envFailW stEmptyW [] [depNewW] [] "b".toList depNewW (by decide)
    (by decide) (by decide)).1 stEmptyW [{ depNewW with New := true }] (by decide)

/-- Claim C5: a non-ignored dependency present in both sets whose current
record carries an override-forced previous ref is included exactly when the
forced previous differs from the current declared ref; the result does not
depend on the previous-set record `d`, and the state — the network-call
trace included — is returned unchanged, so no remote resolution happens. -/
theorem c5_override (env : NetEnv) (st : St) (pm : List (GoString × dependency))
    (ignored : List GoString) (name : GoString) (c d : dependency)
    (hpm : alookup pm name = some d) (hig : name ∉ ignored)
    (hprev : c.Previous ≠ []) :
    depStep env st pm ignored name c =
      (st, if c.Previous ≠ c.Ref then [c] else [], none) := by
  rw [depStep_override_eq env st pm ignored name c d hig hpm hprev]
  by_cases hpr : c.Previous = c.Ref <;> simp [hpr]

theorem c5_witness :
    depStep envFailW stEmptyW [("a".toList, depPrevShaW)] [] "a".toList depOvCurW =
      (stEmptyW, if depOvCurW.Previous ≠ depOvCurW.Ref then [depOvCurW] else [], none) :=
  c5_override envFailW stEmptyW [("a".toList, depPrevShaW)] [] "a".toList depOvCurW
    depPrevShaW (by decide) (by decide) (by decide)

/-- Claim C6 counterexample: the token `"+incompatible"` splits into one
dash-separated segment and contains the incompatible marker (at index 0),
yet normalization returns it unchanged — the source strips the marker only
when `strings.Index` returns a *positive* index, so the claim's
unconditional "if the resulting string contains the marker, strip it"
fails here (it would demand the empty string). -/
theorem c6_counterexample :
    getCommitOrVersion "+incompatible".toList = ("+incompatible".toList, false) ∧
    goIndex "+incompatible".toList incompatibleMarker = 0 ∧
    ("+incompatible".toList : GoString) ≠ [] := by
  decide

/-- Claim C6 (amended): with exactly 3 dash-separated segments the third
segment is returned with the sha flag true; with 1 or 2 segments the token
itself is returned with the flag false; in both cases the
`"+incompatible"` marker and everything after it is stripped exactly when
the marker occurs at a positive index (a result beginning with the marker
is returned unchanged), and the flag is preserved by the stripping. -/
theorem c6_normalization (cov : GoString) :
    (∀ a b c3, goFieldsFunc (fun c => c = '-') cov = [a, b, c3] →
      getCommitOrVersion cov =
        (if 0 < goIndex c3 incompatibleMarker
         then c3.take (goIndex c3 incompatibleMarker).toNat else c3, true)) ∧
    (∀ a, goFieldsFunc (fun c => c = '-') cov = [a] →
      getCommitOrVersion cov =
        (if 0 < goIndex cov incompatibleMarker
         then cov.take (goIndex cov incompatibleMarker).toNat else cov, false)) ∧
    (∀ a b, goFieldsFunc (fun c => c = '-') cov = [a, b] →
      getCommitOrVersion cov =
        (if 0 < goIndex cov incompatibleMarker
         then cov.take (goIndex cov incompatibleMarker).toNat else cov, false)) := by
  refine ⟨?_, ?_, ?_⟩
  · intro a b c3 h
    simp only [getCommitOrVersion, h, List.length_cons, List.length_nil]
    norm_num
    split <;> simp
  · intro a h
    simp only [getCommitOrVersion, h, List.length_cons, List.length_nil]
    norm_num
    split <;> simp
  · intro a b h
    simp only [getCommitOrVersion, h, List.length_cons, List.length_nil]
    norm_num
    split <;> simp

theorem c6_witness :
    goFieldsFunc (fun c => c = '-') "v0.0.0-20171204204709-577dee27f20d".toList =
      ["v0.0.0".toList, "20171204204709".toList, "577dee27f20d".toList] ∧
    getCommitOrVersion "v0.0.0-20171204204709-577dee27f20d".toList =
      (if 0 < goIndex "577dee27f20d".toList incompatibleMarker
       then ("577dee27f20d".toList : GoString).take
         (goIndex "577dee27f20d".toList incompatibleMarker).toNat
       else "577dee27f20d".toList, true) :=
  ⟨by decide, (c6_normalization "v0.0.0-20171204204709-577dee27f20d".toList).1
    "v0.0.0".toList "20171204204709".toList "577dee27f20d".toList (by decide)⟩

/-- Claim C7: every version token splitting into more than 3 dash-separated
segments fails normalization: `getCommitOrVersion` returns the empty string
(the error signal to the caller) with the sha flag false. -/
theorem c7_too_many_segments (cov : GoString)
    (h : 3 < (goFieldsFunc (fun c => c = '-') cov).length) :
    getCommitOrVersion cov = ([], false) := by
  simp only [getCommitOrVersion]
  rw [if_pos h]

theorem c7_witness :
    3 < (goFieldsFunc (fun c => c = '-') "a-b-c-d".toList).length ∧
    getCommitOrVersion "a-b-c-d".toList = ([], false) :=
  ⟨by decide, c7_too_many_segments "a-b-c-d".toList (by decide)⟩

/-- Claim C8: known-host URL derivation maps
`github.com/someorg/somerepo/v2` to `https://github.com/someorg/somerepo`
(only the first three path segments count), `k8s.io/client-go` to
`https://github.com/kubernetes/client-go`, and `github.com/invalid` to the
empty string; and every name whose first path segment is outside the
known-host table (`github.com`, `k8s.io`, `sigs.k8s.io`, `gopkg.in`,
`golang.org`) yields the empty string. -/
theorem c8_known_hosts :
    getGitURL "github.com/someorg/somerepo/v2".toList =
      "https://github.com/someorg/somerepo".toList ∧
    getGitURL "k8s.io/client-go".toList =
      "https://github.com/kubernetes/client-go".toList ∧
    getGitURL "github.com/invalid".toList = [] ∧
    ∀ name : GoString,
      name.takeWhile (fun c => c ≠ '/') ∉
        ["github.com".toList, "k8s.io".toList, "sigs.k8s.io".toList,
         "gopkg.in".toList, "golang.org".toList] →
      getGitURL name = [] := by
  refine ⟨by decide, by decide, by decide, ?_⟩
  intro name h
  simp only [List.mem_cons, List.not_mem_nil, or_false, not_or] at h
  obtain ⟨h1, h2, h3, -, -⟩ := h
  simp only [getGitURL, if_neg h1, if_neg h2, if_neg h3]
  split <;> rfl

theorem c8_witness :
    ("example.com/foo".toList : GoString).takeWhile (fun c => c ≠ '/') ∉
      ["github.com".toList, "k8s.io".toList, "sigs.k8s.io".toList,
       "gopkg.in".toList, "golang.org".toList] ∧
    getGitURL "example.com/foo".toList = [] :=
  ⟨by decide, c8_known_hosts.2.2.2 "example.com/foo".toList (by decide)⟩

/-- Claim C9: resolution is idempotent through the cache.  A successful
`getSha` call that produced a non-empty (hence cached, 12-character) hash
answers a repeated call for the same (url, rev) from the cache with the
same hash and with the state — the remote-call trace included — unchanged,
so no further remote listing call is issued; likewise a successful
`resolveGitURL` answers a repeated discovery of the same name from the
cache. -/
theorem c9_cache_idempotent :
    (∀ (env : NetEnv) (st : St) (url rev : GoString) (st₁ : St) (sha : GoString),
      getSha env st url rev = (st₁, sha, none) → sha ≠ [] →
      getSha env st₁ url rev = (st₁, sha, none)) ∧
    (∀ (env : NetEnv) (st : St) (name : GoString) (st₁ : St) (u : GoString),
      resolveGitURL env st name = (st₁, u, none) →
      resolveGitURL env st₁ name = (st₁, u, none)) := by
  constructor
  · intro env st url rev st₁ sha h hne
    cases hc : alookup st.cache (shaKeyOf url rev) with
    | some b =>
      simp only [getSha, hc, Prod.mk.injEq] at h
      obtain ⟨h1, h2, -⟩ := h
      subst h1; subst h2
      simp [getSha, hc]
    | none =>
      rcases hls : lsRemote env st url rev with ⟨st₂, bopt⟩
      cases bopt with
      | none =>
        simp only [getSha, hc, hls, Prod.mk.injEq] at h
        exact absurd h.2.1.symm hne
      | some b =>
        by_cases hz : scanShaLines (goSplit '\n' b) false [] = []
        · simp only [getSha, hc, hls, hz, reduceIte, Prod.mk.injEq] at h
          exact Option.noConfusion h.2.2
        · simp only [getSha, hc, hls, hz, reduceIte, Prod.mk.injEq] at h
          obtain ⟨h1, h2, -⟩ := h
          subst h2
          rw [← h1]
          have hlook : alookup (ainsert st₂.cache (shaKeyOf url rev)
              (scanShaLines (goSplit '\n' b) false [])) (shaKeyOf url rev) =
              some (scanShaLines (goSplit '\n' b) false []) := by
            rw [alookup_ainsert]
            simp
          simp [getSha, hlook]
  · intro env st name st₁ u h
    cases hc : alookup st.cache (goGetURLOf name) with
    | some b =>
      simp only [resolveGitURL, hc, Prod.mk.injEq] at h
      obtain ⟨h1, h2, -⟩ := h
      subst h1; subst h2
      simp [resolveGitURL, hc]
    | none =>
      cases hg : env.goGet name with
      | none =>
        simp only [resolveGitURL, hc, hg, Prod.mk.injEq] at h
        exact Option.noConfusion h.2.2
      | some resolved =>
        simp only [resolveGitURL, hc, hg, Prod.mk.injEq] at h
        obtain ⟨h1, h2, -⟩ := h
        subst h2
        rw [← h1]
        have hlook : alookup (ainsert st.cache (goGetURLOf name) resolved)
            (goGetURLOf name) = some resolved := by
          rw [alookup_ainsert]
          simp
        simp [resolveGitURL, hlook]

theorem c9_witness :
    getSha envOkW stShaW urlW revW = (stShaW, "aaaabbbbcccc".toList, none) ∧
    resolveGitURL envOkW stGoGetW "n".toList =
      (stGoGetW, "https://example.com/git".toList, none) :=
  ⟨c9_cache_idempotent.1 envOkW stEmptyW urlW revW stShaW "aaaabbbbcccc".toList
      (by decide) (by decide),
    c9_cache_idempotent.2 envOkW stEmptyW "n".toList stGoGetW
      "https://example.com/git".toList (by decide)⟩

/-- Claim C10: `renameDependencies` only rewrites the `Name` field.  The
output has the same length; at every position the `Ref`, `Sha`, `Previous`,
`GitURL` and `New` fields are unchanged; a record whose name matches the
`Old` side of no rename rule is returned identical; a record whose name is
in the rename map gets the `New` name of a rule whose `Old` side equals its
name; and an empty rename map returns the list unchanged. -/
theorem c10_rename_frame (deps : List dependency)
    (renames : List (GoString × projectRename)) :
    (renameDependencies deps renames).length = deps.length ∧
    (∀ (i : Nat) (d : dependency), deps[i]? = some d →
      ∃ d', (renameDependencies deps renames)[i]? = some d' ∧
        d'.Ref = d.Ref ∧ d'.Sha = d.Sha ∧ d'.Previous = d.Previous ∧
        d'.GitURL = d.GitURL ∧ d'.New = d.New ∧
        ((∀ p ∈ renames, p.2.Old ≠ d.Name) → d' = d) ∧
        (∀ v, alookup (buildRenameMap renames) d.Name = some v →
          d'.Name = v.2 ∧ ∃ p ∈ renames, p.2.Old = d.Name ∧ p.2.New = v.2)) ∧
    (renames = [] → renameDependencies deps renames = deps) := by
  refine ⟨?_, ?_, ?_⟩
  · by_cases hr : renames = [] <;> simp [renameDependencies, hr]
  · intro i d hd
    by_cases hr : renames = []
    · refine ⟨d, by simp [renameDependencies, hr, hd], rfl, rfl, rfl, rfl, rfl,
        fun _ => rfl, ?_⟩
      intro v hv
      rw [show buildRenameMap renames = [] by simp [buildRenameMap, hr]] at hv
      simp [alookup] at hv
    · have hmap : renameDependencies deps renames = deps.map (fun d =>
          match alookup (buildRenameMap renames) d.Name with
          | some u => { d with Name := u.2 }
          | none => d) := by
        simp [renameDependencies, hr]
      rw [hmap, List.getElem?_map, hd]
      cases hv : alookup (buildRenameMap renames) d.Name with
      | none =>
        refine ⟨d, by simp [hv], rfl, rfl, rfl, rfl, rfl, fun _ => rfl, ?_⟩
        intro v hv'
        exact Option.noConfusion hv'
      | some u =>
        refine ⟨{ d with Name := u.2 }, by simp [hv], rfl, rfl, rfl, rfl, rfl,
          ?_, ?_⟩
        · intro hnone
          exfalso
          obtain ⟨p, hp, h1, -⟩ := buildRenameMap_lookup_mem hv
          exact hnone p hp h1
        · intro v hv'
          obtain rfl := Option.some.inj hv'
          obtain ⟨p, hp, h1, h2⟩ := buildRenameMap_lookup_mem hv
          refine ⟨rfl, p, hp, h1, ?_⟩
          exact congrArg Prod.snd h2
  · intro hr
    simp [renameDependencies, hr]

theorem c10_witness :
    ∃ d', (renameDependencies [depOldW] renamesW)[0]? = some d' ∧
      d'.Ref = depOldW.Ref ∧ d'.Sha = depOldW.Sha ∧
      d'.Previous = depOldW.Previous ∧ d'.GitURL = depOldW.GitURL ∧
      d'.New = depOldW.New ∧
      ((∀ p ∈ renamesW, p.2.Old ≠ depOldW.Name) → d' = depOldW) ∧
      (∀ v, alookup (buildRenameMap renamesW) depOldW.Name = some v →
        d'.Name = v.2 ∧ ∃ p ∈ renamesW, p.2.Old = depOldW.Name ∧ p.2.New = v.2) :=
  (c10_rename_frame [depOldW] renamesW).2.1 0 depOldW (by decide)
